import Mathlib

/-!
A verification development for `monitor.py`, an eBay camera-lot monitor.

The listing-evaluation pipeline of the script is shallowly embedded here:

* Python strings are modelled as Lean `String`s; `str.lower()` is modelled by
  mapping `Char.toLower` over the characters, which agrees with Python on the
  ASCII range (the script's configuration phrases and regexes are all ASCII).
* The regular expressions of `extract_qty` and `score_listing` are embedded by
  hand-rolled scanners over `List Char` that reproduce Python `re.search`
  semantics for these concrete patterns: leftmost match, greedy quantifiers
  with backtracking, ordered alternation, ASCII `\b` / `\s` / `\d` / `\w`
  classes.
* The `seen` cache is a Python `set`.  Its membership semantics is modelled by
  list membership, with the insertion history kept as the list order.  Python
  does not expose any iteration order for a `set`: `list(seen)` enumerates by
  hash-table layout (randomised for strings via PYTHONHASHSEED), not by
  insertion.  `save_seen` therefore takes the enumeration produced by
  `list(seen)` as an explicit argument: any duplicate-free listing of the
  set's elements is a possible behaviour of the code.
* `alerts.sort(key=lambda x: x[0], reverse=True)` is Python's documented
  stable descending sort; it is modelled by a stable insertion sort on the
  score component.
* `load_seen` reads `seen.json`; the persistent surface is modelled by an
  explicit argument saying whether the file is absent, unparseable, or parses
  to a given JSON-like value.  Caught exceptions (`except: return set()`, and
  the `AttributeError` / `TypeError` raised by `.get` on a non-dict or by
  `set(...)` on a non-iterable) are modelled by returning the empty store.
* `pick_group` reads the wall clock; it is modelled as a function of an
  explicit non-negative integer timestamp.
-/

set_option maxRecDepth 8000

namespace CameraMonitor

/-! ### ASCII character classes (Python `re` classes `\w`, `\s`, `\d`) -/

/-- Python `str.lower()` (ASCII case mapping, `Char.toLower` pointwise). -/
def pyLower (s : String) : String := ⟨s.data.map Char.toLower⟩

/-- Python regex `\w` on ASCII: letters, digits, underscore. -/
def isWordChar (c : Char) : Bool :=
  decide (97 ≤ c.toNat ∧ c.toNat ≤ 122) || decide (65 ≤ c.toNat ∧ c.toNat ≤ 90) ||
    decide (48 ≤ c.toNat ∧ c.toNat ≤ 57) || decide (c.toNat = 95)

/-- Python regex `\s` on ASCII: space, tab, newline, carriage return, vertical
tab, form feed. -/
def isSpaceChar (c : Char) : Bool :=
  decide (c.toNat = 32) || decide (c.toNat = 9) || decide (c.toNat = 10) ||
    decide (c.toNat = 13) || decide (c.toNat = 11) || decide (c.toNat = 12)

/-- Python regex `\d` on ASCII: the decimal digits. -/
def isDigitChar (c : Char) : Bool :=
  decide (48 ≤ c.toNat ∧ c.toNat ≤ 57)

/-- The zero-width assertion `\b` placed before a word character: the previous
character (none at the start of the string) must not be a word character. -/
def nonWordBefore : Option Char → Bool
  | none => true
  | some c => !isWordChar c

/-- The zero-width assertion `\b` placed after a word character: the next
character (none at the end of the string) must not be a word character. -/
def boundaryAfter : List Char → Bool
  | [] => true
  | c :: _ => !isWordChar c

/-- The test `startsWithL w s`: `w` is an initial run of `s`. -/
def startsWithL : List Char → List Char → Bool
  | [], _ => true
  | _ :: _, [] => false
  | a :: as, b :: bs => a == b && startsWithL as bs

/-- Python substring containment `w in t`. -/
def isSubL (w : List Char) : List Char → Bool
  | [] => w.isEmpty
  | c :: rest => startsWithL w (c :: rest) || isSubL w rest

/-- Greedy `\s*` (the tokens following it in the embedded patterns never start
with a space character, so maximal munch is exact). -/
def skipSpaces (s : List Char) : List Char := s.dropWhile isSpaceChar

/-! ### Configuration constants of monitor.py -/

def BLOCKLIST : List String :=
  ["junk", "spares", "broken", "repair", "parts only", "accessories only",
   "camera case lot", "camera cases lot", "camera bag lot", "camera bags lot"]

def BRANDS : List String :=
  ["nikon", "canon", "olympus", "pentax", "konica", "minolta",
   "sony", "panasonic", "fujifilm", "ricoh", "casio", "kodak",
   "polaroid", "leica", "hasselblad", "mamiya", "contax", "yashica",
   "zenit", "praktica", "chinon", "rollei", "agfa"]

def UK_HINTS : List String :=
  ["job lot", "joblot", "bundle", "collection", "mixed lot", "mixed",
   "house clearance", "loft find", "garage find", "estate", "charity",
   "vintage", "old", "retro"]

def BIG_LOT_HINTS : List String :=
  ["huge lot", "massive lot", "large lot", "big lot", "bulk",
   "box of", "crate of", "bag of", "bundle of"]

def WORD_NUMBERS : List (String × Nat) :=
  [("one", 1), ("two", 2), ("three", 3), ("four", 4), ("five", 5),
   ("six", 6), ("seven", 7), ("eight", 8), ("nine", 9), ("ten", 10),
   ("twenty", 20), ("thirty", 30), ("forty", 40), ("fifty", 50),
   ("sixty", 60), ("seventy", 70), ("eighty", 80), ("ninety", 90),
   ("hundred", 100), ("hundreds", 100)]

/-! ### extract_qty -/

/-- Matches `(?:camera|cameras|camcorder|camcorders)\b` at the start of `s`.  Every
alternative is followed by the same `\b`, so ordered alternation with
backtracking succeeds exactly when some alternative is a run of `s` followed
by a boundary. -/
def nounAfter (s : List Char) : Bool :=
  ["camera", "cameras", "camcorder", "camcorders"].any
    (fun w => startsWithL w.data s && boundaryAfter (s.drop w.data.length))

/-- Matches `\s*(?:x\s*)?(?:camera|cameras|camcorder|camcorders)\b` at the start of
`s` (the part of pattern 1 after the digits).  The optional `x\s*` is tried
greedily first, then dropped on failure, as the engine backtracks. -/
def qtyCont (s : List Char) : Bool :=
  match skipSpaces s with
  | 'x' :: rest => nounAfter (skipSpaces rest) || nounAfter ('x' :: rest)
  | s1 => nounAfter s1

/-- Python `int(...)` on a run of decimal digit characters. -/
def digitsVal (ds : List Char) : Nat :=
  ds.foldl (fun a c => 10 * a + (c.toNat - 48)) 0

/-- Greedy `\d{1,4}` with backtracking at a fixed start: `ds` is the maximal
digit run of `s`; try consuming `k+1` digits (longest first), succeeding when
the rest of pattern 1 matches after them. -/
def tryLens (s ds : List Char) : Nat → Option Nat
  | 0 => none
  | k + 1 =>
    if qtyCont (s.drop (k + 1)) then some (digitsVal (ds.take (k + 1)))
    else tryLens s ds k

/-- A match attempt of pattern 1 at a start position whose suffix is `s`
(the `\b` before the digits has already been checked). -/
def tryDigits (s : List Char) : Option Nat :=
  let ds := s.takeWhile isDigitChar
  tryLens s ds (min ds.length 4)

/-- Embeds `re.search` of pattern 1,
`\b(\d{1,4})\s*(?:x\s*)?(?:camera|cameras|camcorder|camcorders)\b`:
scan start positions left to right; a match can only start at a digit whose
predecessor is not a word character. -/
def scan1 : Option Char → List Char → Option Nat
  | _, [] => none
  | prev, c :: rest =>
    if nonWordBefore prev && isDigitChar c then
      match tryDigits (c :: rest) with
      | some v => some v
      | none => scan1 (some c) rest
    else scan1 (some c) rest

/-- Matches `(\d{1,4})\b` at the start of `s`: the digit run must be non-empty, at
most 4 long (a longer run leaves a digit, a word character, after any `k ≤ 4`
digits, so every greedy attempt fails) and followed by a boundary. -/
def digitsBounded (s : List Char) : Option Nat :=
  let r := s.takeWhile isDigitChar
  if 1 ≤ r.length ∧ r.length ≤ 4 ∧ boundaryAfter (s.drop r.length) = true then
    some (digitsVal r)
  else none

/-- Matches `\s+of\s+(\d{1,4})\b` at the start of `s` (the part of pattern 2 after
the container word). -/
def cont2 : List Char → Option Nat
  | [] => none
  | c :: rest =>
    if isSpaceChar c then
      if startsWithL "of".data (skipSpaces rest) then
        match (skipSpaces rest).drop 2 with
        | [] => none
        | d :: rest2 => if isSpaceChar d then digitsBounded (skipSpaces rest2) else none
      else none
    else none

/-- The ordered alternation `(?:lot|job lot|joblot|bundle|box|crate|bag)` of
pattern 2, in the pattern's order. -/
def containerAlts : List String :=
  ["lot", "job lot", "joblot", "bundle", "box", "crate", "bag"]

/-- Try the container alternatives at a fixed start position in order,
continuing with `cont2` after the matched word. -/
def tryContainers : List String → List Char → Option Nat
  | [], _ => none
  | w :: ws, s =>
    if startsWithL w.data s then
      match cont2 (s.drop w.data.length) with
      | some v => some v
      | none => tryContainers ws s
    else tryContainers ws s

/-- Embeds `re.search` of pattern 2,
`\b(?:lot|job lot|joblot|bundle|box|crate|bag)\s+of\s+(\d{1,4})\b`. -/
def scan2 : Option Char → List Char → Option Nat
  | _, [] => none
  | prev, c :: rest =>
    if nonWordBefore prev then
      match tryContainers containerAlts (c :: rest) with
      | some v => some v
      | none => scan2 (some c) rest
    else scan2 (some c) rest

/-- Matches `w\s+(?:camera|cameras|camcorder|camcorders)\b` at the start of `s`. -/
def wordNumCont (w : String) (s : List Char) : Bool :=
  startsWithL w.data s &&
    match s.drop w.data.length with
    | [] => false
    | d :: rest2 => isSpaceChar d && nounAfter (skipSpaces rest2)

/-- Embeds `re.search` of `\bw\s+(?:camera|cameras|camcorder|camcorders)\b` for one
number word `w`. -/
def wordNumAt : String → Option Char → List Char → Bool
  | _, _, [] => false
  | w, prev, c :: rest =>
    (nonWordBefore prev && wordNumCont w (c :: rest)) || wordNumAt w (some c) rest

/-- The `for w, val in WORD_NUMBERS.items()` loop: Python dicts iterate in
insertion order, so the first table entry whose pattern matches wins. -/
def firstWordNum : List (String × Nat) → List Char → Option Nat
  | [], _ => none
  | (w, v) :: ws, t => if wordNumAt w none t then some v else firstWordNum ws t

/-- Matches `one\s+hundred\s+(?:camera|cameras|camcorder|camcorders)\b` at the start
of `s`. -/
def oneHundredCont (s : List Char) : Bool :=
  startsWithL "one".data s &&
    match s.drop 3 with
    | [] => false
    | d :: rest =>
      isSpaceChar d &&
        (let s1 := skipSpaces rest
         startsWithL "hundred".data s1 &&
           match s1.drop 7 with
           | [] => false
           | d2 :: rest2 => isSpaceChar d2 && nounAfter (skipSpaces rest2))

/-- Embeds `re.search` of pattern 4,
`\bone\s+hundred\s+(?:camera|cameras|camcorder|camcorders)\b`. -/
def oneHundredAt : Option Char → List Char → Bool
  | _, [] => false
  | prev, c :: rest =>
    (nonWordBefore prev && oneHundredCont (c :: rest)) || oneHundredAt (some c) rest

/-- Python `extract_qty(title)`: the four extraction rules of monitor.py in their
precedence order (first match wins); `None` becomes `none`. -/
def extract_qty (title : String) : Option Nat :=
  let t := (pyLower title).data
  match scan1 none t with
  | some v => some v
  | none =>
    match scan2 none t with
    | some v => some v
    | none =>
      match firstWordNum WORD_NUMBERS t with
      | some v => some v
      | none => if oneHundredAt none t then some 100 else none

/-! ### hard_reject and score_listing -/

/-- Python `hard_reject(title)`: `any(w in title.lower() for w in BLOCKLIST)`. -/
def hard_reject (title : String) : Bool :=
  BLOCKLIST.any (fun w => isSubL w.data (pyLower title).data)

/-- The alternation of the camera-type keyword regex of `score_listing`, in
the pattern's order. -/
def typeAlts : List String :=
  ["camera", "cameras", "compact", "digicam", "dslr", "slr", "tlr",
   "rangefinder", "film", "35mm", "instant", "camcorder"]

/-- The alternation of the working-hint regex of `score_listing`. -/
def workingAlts : List String :=
  ["shutter working", "shutters working", "tested working", "fully working"]

/-- Some alternative matches at this start position, followed by `\b`. -/
def altHit : List String → List Char → Bool
  | [], _ => false
  | w :: ws, s =>
    (startsWithL w.data s && boundaryAfter (s.drop w.data.length)) || altHit ws s

/-- Embeds `re.search` of `\b(alt1|...|altN)\b` (all alternatives here start with a
word character, so the leading `\b` says the previous character is not one). -/
def scanAlts (alts : List String) : Option Char → List Char → Bool
  | _, [] => false
  | prev, c :: rest =>
    (nonWordBefore prev && altHit alts (c :: rest)) || scanAlts alts (some c) rest

/-- The quantity bonus of `score_listing` as a function of a known quantity:
`+2`, then `+3`, `+4`, `+5` cumulatively at the 20 / 50 / 100 tiers. -/
def qtyBonus (q : Nat) : Int :=
  2 + (if 20 ≤ q then (3 : Int) else 0) + (if 50 ≤ q then (4 : Int) else 0) +
    (if 100 ≤ q then (5 : Int) else 0)

/-- Python `score_listing(title)`: hard reject to `-999`, else the additive score,
accumulated in the order of the source. -/
def score_listing (title : String) : Int :=
  let tl := pyLower title
  let t := tl.data
  if hard_reject tl then -999
  else
    let s1 : Int := if scanAlts typeAlts none t then 2 else 0
    let s2 : Int := s1 + (if BRANDS.any (fun b => isSubL b.data t) then 2 else 0)
    let s3 : Int := UK_HINTS.foldl (fun sc w => if isSubL w.data t then sc + 1 else sc) s2
    let s4 : Int := BIG_LOT_HINTS.foldl (fun sc w => if isSubL w.data t then sc + 2 else sc) s3
    let s5 : Int :=
      match extract_qty title with
      | none => s4
      | some q =>
        let a1 := s4 + 2
        let a2 := if 20 ≤ q then a1 + 3 else a1
        let a3 := if 50 ≤ q then a2 + 4 else a2
        if 100 ≤ q then a3 + 5 else a3
    if scanAlts workingAlts none t then s5 + 2 else s5

/-- The score `score_listing` with the quantity-bonus lines removed: the sum of all the
other contributions, used to state that the quantity bonus is exactly
additive. -/
def scoreSansQty (title : String) : Int :=
  let tl := pyLower title
  let t := tl.data
  if hard_reject tl then -999
  else
    let s1 : Int := if scanAlts typeAlts none t then 2 else 0
    let s2 : Int := s1 + (if BRANDS.any (fun b => isSubL b.data t) then 2 else 0)
    let s3 : Int := UK_HINTS.foldl (fun sc w => if isSubL w.data t then sc + 1 else sc) s2
    let s4 : Int := BIG_LOT_HINTS.foldl (fun sc w => if isSubL w.data t then sc + 2 else sc) s3
    if scanAlts workingAlts none t then s4 + 2 else s4

/-! ### The seen cache -/

/-- Python `save_seen(seen)` writes `list(seen)[-3000:]`.  `enum` is the enumeration
`list(seen)` produces: some duplicate-free listing of the set's elements, in
an order the language does not specify (hash-table order, not insertion
order).  `[-3000:]` keeps the last 3000 entries of that enumeration. -/
def save_seen (enum : List String) : List String :=
  enum.drop (enum.length - 3000)

/-- A JSON-like value as `json.load` can produce it. -/
inductive PyVal where
  | pnull : PyVal
  | pbool : Bool → PyVal
  | pint : Int → PyVal
  | pstr : String → PyVal
  | plist : List PyVal → PyVal
  | pdict : List (String × PyVal) → PyVal

/-- What reading `seen.json` can yield: no file, a file `json.load` raises
on, or a parsed value. -/
inductive LoadResult where
  | absent : LoadResult
  | unparseable : LoadResult
  | parsed : PyVal → LoadResult

/-- Python `dict.get(k, default=None)` (JSON keeps the last of duplicate
keys, so lookup is last-wins). -/
def dictGet (kvs : List (String × PyVal)) (k : String) : Option PyVal :=
  kvs.foldl (fun acc p => if p.1 = k then some p.2 else acc) none

/-- A value Python can put in a set (lists and dicts are unhashable;
`set(...)` raises `TypeError` on them). -/
def hashable : PyVal → Bool
  | .plist _ => false
  | .pdict _ => false
  | _ => true

/-- Equality of hashable JSON values (structural; on the string elements the
claims concern, this is Python `==`). -/
def pyEqFlat : PyVal → PyVal → Bool
  | .pnull, .pnull => true
  | .pbool a, .pbool b => a == b
  | .pint a, .pint b => a == b
  | .pstr a, .pstr b => a == b
  | _, _ => false

/-- Membership up to `pyEqFlat`. -/
def pyElem (x : PyVal) (l : List PyVal) : Bool := l.any (pyEqFlat x)

/-- The distinct elements of a list: a representation of `set(l)` (the set is
unordered, only membership is observable). -/
def pyDedup : List PyVal → List PyVal
  | [] => []
  | x :: xs => if pyElem x xs then pyDedup xs else x :: pyDedup xs

/-- Python `set(v)` on a JSON value: the distinct elements for an iterable of
hashable values, `none` (a `TypeError`) otherwise.  Iterating a string gives
its one-character strings, a dict its keys. -/
def pySet : PyVal → Option (List PyVal)
  | .plist l => if l.all hashable then some (pyDedup l) else none
  | .pstr s => some (pyDedup (s.data.map (fun c => PyVal.pstr ⟨[c]⟩)))
  | .pdict kvs => some (pyDedup (kvs.map (fun p => PyVal.pstr p.1)))
  | _ => none

/-- Python `load_seen()`: a result of `set()` when the file is absent; `set()` when `json.load`
or the `.get`/`set` calls raise (the bare `except` catches everything); else
`set(parsed.get("seen_ids", []))`. -/
def load_seen : LoadResult → List PyVal
  | .absent => []
  | .unparseable => []
  | .parsed v =>
    match v with
    | .pdict kvs =>
      match dictGet kvs "seen_ids" with
      | none => []
      | some w => (pySet w).getD []
    | _ => []

/-! ### The per-run listing loop of main() -/

/-- A raw listing record as `fetch_search` builds it. -/
structure Listing where
  id : String
  title : String
  price : String
  link : String

/-- The inner loop of `main()` over candidate listings: skip a listing whose
id is already seen, else mark it seen (the list keeps the insertion history;
membership is the set's observable) and, when it scores at least 3, append
`(score, listing)` to the alert batch. -/
def processItems : List String → List (Int × Listing) → List Listing →
    List String × List (Int × Listing)
  | seen, alerts, [] => (seen, alerts)
  | seen, alerts, it :: rest =>
    if it.id ∈ seen then processItems seen alerts rest
    else if 3 ≤ score_listing it.title then
      processItems (seen ++ [it.id]) (alerts ++ [(score_listing it.title, it)]) rest
    else processItems (seen ++ [it.id]) alerts rest

/-- Stable descending insertion on the score component: the new element goes
before the first element whose score is not larger.  This realises the
documented semantics of Python's stable `list.sort(key=..., reverse=True)`. -/
def insertDesc (x : Int × Listing) : List (Int × Listing) → List (Int × Listing)
  | [] => [x]
  | y :: ys => if y.1 ≤ x.1 then x :: y :: ys else y :: insertDesc x ys

/-- Stable sort by score descending (`alerts.sort(key=lambda x: x[0],
reverse=True)`). -/
def sortDesc : List (Int × Listing) → List (Int × Listing)
  | [] => []
  | x :: xs => insertDesc x (sortDesc xs)

/-- Models `alerts.sort(...)` followed by `alerts = alerts[:7]`. -/
def rankAlerts (l : List (Int × Listing)) : List (Int × Listing) :=
  (sortDesc l).take 7

/-! ### Term rotation -/

def SEARCH_GROUPS : List (List String) :=
  [["camera job lot", "cameras job lot", "joblot cameras", "job lot cameras",
    "camera lot", "cameras lot", "camera bundle", "camera bundles",
    "camera collection", "camera collections", "mixed camera lot", "mixed cameras",
    "house clearance cameras", "loft find cameras", "garage find cameras",
    "vintage camera lot", "old camera lot", "retro camera lot"],
   ["digital camera lot", "digital cameras lot", "compact camera lot", "compact cameras lot",
    "digicam lot", "digicams lot", "point and shoot lot", "point and shoot camera lot",
    "pocket camera lot", "small camera lot", "bridge camera lot", "zoom camera lot",
    "early digital camera lot", "2000s digital camera lot", "vintage digital camera lot"],
   ["film camera lot", "film cameras lot", "35mm camera lot", "35mm cameras lot",
    "slr film camera lot", "rangefinder camera lot", "tlr camera lot",
    "medium format camera lot", "6x6 camera lot", "instant camera lot", "polaroid camera lot",
    "vintage film camera lot", "old film cameras lot"],
   ["dslr camera lot", "dslr cameras lot", "slr camera lot", "slr cameras lot",
    "digital slr lot", "camera bodies lot", "camera body lot",
    "nikon dslr lot", "canon dslr lot", "pentax dslr lot"],
   ["nikon camera lot", "canon camera lot", "olympus camera lot", "pentax camera lot",
    "konica camera lot", "minolta camera lot", "fujifilm camera lot", "sony camera lot",
    "panasonic camera lot", "ricoh camera lot", "kodak camera lot", "casio camera lot",
    "polaroid lot cameras", "leica camera lot"],
   ["canon powershot lot", "nikon coolpix lot", "sony cybershot lot",
    "fujifilm finepix lot", "panasonic lumix lot", "olympus stylus lot", "olympus mju lot",
    "ricoh caplio lot", "kodak easyshare lot", "casio exilim lot"],
   ["huge camera lot", "massive camera lot", "large camera lot", "big camera lot",
    "bulk cameras lot", "box of cameras", "crate of cameras", "bag of cameras",
    "bundle of cameras", "job lot of cameras"]]

/-- Python `pick_group()`: `int(time.time() // 300) % len(SEARCH_GROUPS)`, as a
function of the (non-negative integer) timestamp. -/
def pick_group (t : Nat) : Nat := (t / 300) % SEARCH_GROUPS.length

/-! ### Concrete stores used in the eviction scenarios -/

/-- A family of pairwise-distinct identifiers, none equal to `"x"`. -/
def fillerId (n : Nat) : String := ⟨List.replicate (n + 1) 'f'⟩

/-- A filler listing: its title scores 0, so it is seen but never alerted. -/
def fillerListing (n : Nat) : Listing := ⟨fillerId n, "", "", ""⟩

/-- A listing whose title scores 14, well above the alert threshold. -/
def lotListing : Listing := ⟨"x", "Canon camera job lot of 70", "", ""⟩

/-- A run's candidates: the alertable listing first, then 3000 fresh filler
listings, enough to push the store past its 3000-entry cap. -/
def run1Items : List Listing := lotListing :: (List.range 3000).map fillerListing

/-- A second family of pairwise-distinct identifiers, for the eviction-order
scenario. -/
def gid (n : Nat) : String := ⟨List.replicate (n + 1) 'g'⟩

/-- Some 3001 identifiers in their insertion order: `gid 0` is the oldest. -/
def insOrder : List String := gid 0 :: (List.range 3000).map (fun n => gid (n + 1))

/-- A possible `list(seen)` enumeration of the same 3001 identifiers in which
the oldest one comes last. -/
def hashEnum : List String := (List.range 3000).map (fun n => gid (n + 1)) ++ [gid 0]

/-! ## Lemmas about lowercasing -/

theorem char_toNat_ofNat_valid (n : Nat) (h : n.isValidChar) :
    (Char.ofNat n).toNat = n := by
  unfold Char.ofNat
  rw [dif_pos h]
  rfl

theorem toLower_toLower (c : Char) : c.toLower.toLower = c.toLower := by
  unfold Char.toLower
  by_cases h : c.toNat ≥ 65 ∧ c.toNat ≤ 90
  · rw [if_pos h]
    have hv : (c.toNat + 32).isValidChar := Or.inl (by omega)
    have ht := char_toNat_ofNat_valid (c.toNat + 32) hv
    rw [if_neg (by omega)]
  · rw [if_neg h, if_neg h]

theorem pyLower_idem (s : String) : pyLower (pyLower s) = pyLower s := by
  unfold pyLower
  refine congrArg String.mk ?_
  rw [List.map_map]
  exact List.map_congr_left (fun c _ => toLower_toLower c)

/-! ## Claim theorems (with their supporting lemmas) -/

/-- Claim C4 (confirmed): any title containing a blocklist phrase as a
case-insensitive substring is hard-rejected by `score_listing`: the result is
the sentinel `-999` whatever else the title contains, and no additive scoring
is performed. -/
theorem blocklist_hard_rejects (title w : String) (hw : w ∈ BLOCKLIST)
    (hsub : isSubL w.data (pyLower title).data = true) :
    score_listing title = -999 := by
  have hr : hard_reject (pyLower title) = true := by
    unfold hard_reject
    rw [pyLower_idem]
    exact List.any_eq_true.mpr ⟨w, hw, hsub⟩
  simp only [score_listing, hr, if_pos]

/-- The hard-reject short-circuit at a concrete input: a title that also has
a brand, a camera keyword and a lot hint still scores `-999` because of
"broken". -/
theorem blocklist_hard_rejects_witness :
    score_listing "Nikon camera BROKEN job lot" = -999 :=
  blocklist_hard_rejects "Nikon camera BROKEN job lot" "broken" (by decide) (by decide)

/-- Claim C5 (confirmed): on a non-rejected title with a known extracted
quantity `q`, the score decomposes as the quantity-free score plus
`qtyBonus q`; the tiers are cumulative: `qtyBonus 20 = 5`,
`qtyBonus 100 = qtyBonus 150 = 14`, and any quantity of at least 100 earns
strictly more quantity points than a quantity of 20. -/
theorem qty_bonus_cumulative (title : String) (q : Nat)
    (hr : hard_reject (pyLower title) = false)
    (hq : extract_qty title = some q) :
    score_listing title = scoreSansQty title + qtyBonus q ∧
    qtyBonus 20 = 5 ∧ qtyBonus 100 = 14 ∧ qtyBonus 150 = 14 ∧
    ∀ q2 : Nat, 100 ≤ q2 → qtyBonus 20 < qtyBonus q2 := by
  refine ⟨?_, by decide, by decide, by decide, ?_⟩
  · simp only [score_listing, scoreSansQty, hr, hq, qtyBonus, Bool.false_eq_true, if_false]
    split_ifs <;> omega
  · intro q2 h
    have h20 : 20 ≤ q2 := by omega
    have h50 : 50 ≤ q2 := by omega
    simp only [qtyBonus, if_pos h20, if_pos h50, if_pos h]
    norm_num

/-- The quantity-bonus decomposition at a concrete input. -/
theorem qty_bonus_cumulative_witness :
    score_listing "127 cameras untested" =
      scoreSansQty "127 cameras untested" + qtyBonus 127 ∧
    qtyBonus 20 = 5 ∧ qtyBonus 100 = 14 ∧ qtyBonus 150 = 14 ∧
    ∀ q2 : Nat, 100 ≤ q2 → qtyBonus 20 < qtyBonus q2 :=
  qty_bonus_cumulative "127 cameras untested" 127 (by decide) (by decide)

/-- Claim C6 (confirmed): the reference values of the quantity extractor, and
word-boundary behaviour: "tent cameras" does not match the number word "ten"
and yields unknown. -/
theorem extract_qty_reference_values :
    extract_qty "Canon camera job lot of 70" = some 70 ∧
    extract_qty "127 cameras untested" = some 127 ∧
    extract_qty "seventy cameras bundle" = some 70 ∧
    extract_qty "nice camera bag" = none ∧
    extract_qty "tent cameras" = none :=
  ⟨by decide, by decide, by decide, by decide, by decide⟩

/-- Claim C3, counterexample: on the title "0 cameras" the extractor returns
the quantity 0, which is neither "unknown" nor a positive integer — the digit
pattern `\d{1,4}` accepts a literal zero. -/
theorem extract_qty_zero_counterexample : extract_qty "0 cameras" = some 0 := by
  decide

/-! ### Range of the extracted quantity -/

theorem digit_range {c : Char} (h : isDigitChar c = true) :
    48 ≤ c.toNat ∧ c.toNat ≤ 57 :=
  of_decide_eq_true h

theorem mem_takeWhile_digit {s : List Char} {c : Char}
    (h : c ∈ s.takeWhile isDigitChar) : isDigitChar c = true := by
  induction s with
  | nil => simp [List.takeWhile] at h
  | cons d rest ih =>
    rw [List.takeWhile] at h
    by_cases hd : isDigitChar d = true
    · rw [hd] at h
      rcases List.mem_cons.mp h with rfl | h2
      · exact hd
      · exact ih h2
    · rw [Bool.not_eq_true] at hd
      rw [hd] at h
      simp at h

theorem digitsVal_aux_lt (ds : List Char) (hds : ∀ c ∈ ds, isDigitChar c = true) :
    ∀ a : Nat, List.foldl (fun a c => 10 * a + (c.toNat - 48)) a ds <
      (a + 1) * 10 ^ ds.length := by
  induction ds with
  | nil =>
    intro a
    simp only [List.foldl_nil, List.length_nil, pow_zero, mul_one]
    exact Nat.lt_succ_self a
  | cons c rest ih =>
    intro a
    have hd : c.toNat - 48 ≤ 9 := by
      have := digit_range (hds c (List.mem_cons_self c rest))
      omega
    have step := ih (fun x hx => hds x (List.mem_cons_of_mem c hx)) (10 * a + (c.toNat - 48))
    calc List.foldl (fun a c => 10 * a + (c.toNat - 48)) a (c :: rest)
        = List.foldl (fun a c => 10 * a + (c.toNat - 48)) (10 * a + (c.toNat - 48)) rest := by
          rw [List.foldl_cons]
      _ < (10 * a + (c.toNat - 48) + 1) * 10 ^ rest.length := step
      _ ≤ ((a + 1) * 10) * 10 ^ rest.length :=
          Nat.mul_le_mul_right _ (by omega)
      _ = (a + 1) * 10 ^ (c :: rest).length := by
          rw [List.length_cons, pow_succ]
          ring

theorem digitsVal_le (ds : List Char) (hds : ∀ c ∈ ds, isDigitChar c = true)
    (hlen : ds.length ≤ 4) : digitsVal ds ≤ 9999 := by
  have h1 : digitsVal ds < 1 * 10 ^ ds.length := by
    simpa [digitsVal] using digitsVal_aux_lt ds hds 0
  have h2 : (10 : Nat) ^ ds.length ≤ 10 ^ 4 := Nat.pow_le_pow_right (by omega) hlen
  simp only [one_mul] at h1
  omega

theorem tryLens_le (s ds : List Char) (hds : ∀ c ∈ ds, isDigitChar c = true) :
    ∀ k, k ≤ 4 → ∀ v, tryLens s ds k = some v → v ≤ 9999 := by
  intro k
  induction k with
  | zero => intro _ v h; simp [tryLens] at h
  | succ k ih =>
    intro hk v h
    rw [tryLens] at h
    split at h
    · cases h
      refine digitsVal_le _ (fun c hc => hds c (List.mem_of_mem_take hc)) ?_
      calc (ds.take (k + 1)).length ≤ k + 1 := by
            rw [List.length_take]; omega
        _ ≤ 4 := hk
    · exact ih (by omega) v h

theorem tryDigits_le (s : List Char) (v : Nat) (h : tryDigits s = some v) :
    v ≤ 9999 := by
  rw [tryDigits] at h
  exact tryLens_le s _ (fun c hc => mem_takeWhile_digit hc) _ (Nat.min_le_right _ 4) v h

theorem scan1_le : ∀ (s : List Char) (prev : Option Char) (v : Nat),
    scan1 prev s = some v → v ≤ 9999 := by
  intro s
  induction s with
  | nil => intro prev v h; simp [scan1] at h
  | cons c rest ih =>
    intro prev v h
    rw [scan1] at h
    split at h
    · split at h
      · cases h
        next w hw => exact tryDigits_le _ _ hw
      · exact ih (some c) v h
    · exact ih (some c) v h

theorem digitsBounded_le (s : List Char) (v : Nat) (h : digitsBounded s = some v) :
    v ≤ 9999 := by
  rw [digitsBounded] at h
  split at h
  · cases h
    next hc =>
      exact digitsVal_le _ (fun c hc2 => mem_takeWhile_digit hc2) hc.2.1
  · cases h

theorem cont2_le : ∀ (s : List Char) (v : Nat), cont2 s = some v → v ≤ 9999 := by
  intro s v h
  match s with
  | [] => simp [cont2] at h
  | c :: rest =>
    rw [cont2] at h
    split at h
    · split at h
      · split at h
        · cases h
        · split at h
          · exact digitsBounded_le _ _ h
          · cases h
      · cases h
    · cases h

theorem tryContainers_le :
    ∀ (ws : List String) (s : List Char) (v : Nat),
      tryContainers ws s = some v → v ≤ 9999 := by
  intro ws
  induction ws with
  | nil => intro s v h; simp [tryContainers] at h
  | cons w ws ih =>
    intro s v h
    rw [tryContainers] at h
    split at h
    · split at h
      · cases h
        next u hu => exact cont2_le _ _ hu
      · exact ih s v h
    · exact ih s v h

theorem scan2_le : ∀ (s : List Char) (prev : Option Char) (v : Nat),
    scan2 prev s = some v → v ≤ 9999 := by
  intro s
  induction s with
  | nil => intro prev v h; simp [scan2] at h
  | cons c rest ih =>
    intro prev v h
    rw [scan2] at h
    split at h
    · split at h
      · cases h
        next w hw => exact tryContainers_le _ _ _ hw
      · exact ih (some c) v h
    · exact ih (some c) v h

theorem firstWordNum_le :
    ∀ (ws : List (String × Nat)) (t : List Char) (v : Nat),
      (∀ p ∈ ws, p.2 ≤ 9999) → firstWordNum ws t = some v → v ≤ 9999 := by
  intro ws
  induction ws with
  | nil => intro t v _ h; simp [firstWordNum] at h
  | cons p ws ih =>
    intro t v hb h
    rw [firstWordNum] at h
    split at h
    · cases h
      exact hb p (List.mem_cons_self p ws)
    · exact ih t v (fun q hq => hb q (List.mem_cons_of_mem p hq)) h

theorem extract_qty_le (title : String) (v : Nat)
    (h : extract_qty title = some v) : v ≤ 9999 := by
  rw [extract_qty] at h
  split at h
  · cases h
    next hw => exact scan1_le _ _ _ hw
  · split at h
    · cases h
      next hw => exact scan2_le _ _ _ hw
    · split at h
      · cases h
        next hw => exact firstWordNum_le _ _ _ (by decide) hw
      · split at h
        · cases h; omega
        · cases h

/-- Claim C3 (amended): the extractor is a total function — it cannot raise
on any input title — and its result is either unknown or an integer between
0 and 9999 read off the title's own digits or number words.  (The original
claim said "positive"; `extract_qty_zero_counterexample` shows a title whose
literal digit text 0 is returned as 0.) -/
theorem extract_qty_total_range (title : String) :
    extract_qty title = none ∨ ∃ q, extract_qty title = some q ∧ q ≤ 9999 := by
  cases h : extract_qty title with
  | none => exact Or.inl rfl
  | some v => exact Or.inr ⟨v, rfl, extract_qty_le title v h⟩

/-- Claim C7 (confirmed): there are 7 term groups; the selected group index
is a pure function of the timestamp, equal for any two timestamps in the same
300-second window, and one window later the index advances by exactly 1
modulo 7. -/
theorem pick_group_rotation (t1 t2 : Nat) :
    SEARCH_GROUPS.length = 7 ∧
    (t1 / 300 = t2 / 300 → pick_group t1 = pick_group t2) ∧
    pick_group (t1 + 300) = (pick_group t1 + 1) % 7 := by
  refine ⟨rfl, ?_, ?_⟩
  · intro h
    unfold pick_group
    rw [h]
  · unfold pick_group
    have hlen : SEARCH_GROUPS.length = 7 := rfl
    rw [hlen, Nat.add_div_right t1 (by norm_num)]
    omega

/-! ### The seen-store cap and eviction order -/

theorem gid_inj {a b : Nat} (h : gid a = gid b) : a = b := by
  have hd : List.replicate (a + 1) 'g' = List.replicate (b + 1) 'g' :=
    congrArg String.data h
  have hl := congrArg List.length hd
  simp only [List.length_replicate] at hl
  omega

/-- Claim C2 (amended): after every save the persisted store holds at most
3000 identifiers, all of them members of the current store; no eviction
happens below the cap.  Which identifiers are evicted above the cap depends
on the set enumeration `list(seen)`, not on insertion age. -/
theorem save_seen_cap (enum : List String) :
    (save_seen enum).length ≤ 3000 ∧
    (∀ x ∈ save_seen enum, x ∈ enum) ∧
    (enum.length ≤ 3000 → save_seen enum = enum) := by
  refine ⟨?_, ?_, ?_⟩
  · rw [save_seen, List.length_drop]
    omega
  · intro x hx
    exact List.mem_of_mem_drop hx
  · intro h
    rw [save_seen]
    have h0 : enum.length - 3000 = 0 := by omega
    rw [h0, List.drop_zero]

theorem range_3000_cons : List.range 3000 = 0 :: (List.range 2999).map Nat.succ := by
  rw [show (3000 : Nat) = 2999 + 1 from rfl, List.range_succ_eq_map]

theorem hashEnum_cons :
    hashEnum = gid 1 :: ((List.range 2999).map (fun n => gid (n + 2)) ++ [gid 0]) := by
  rw [hashEnum, range_3000_cons, List.map_cons, List.map_map, List.cons_append]
  rfl

theorem save_seen_hashEnum :
    save_seen hashEnum = (List.range 2999).map (fun n => gid (n + 2)) ++ [gid 0] := by
  have hlen : hashEnum.length = 3001 := by
    rw [hashEnum, List.length_append, List.length_map, List.length_range]
    rfl
  rw [save_seen, hlen, show (3001 : Nat) - 3000 = 1 from rfl, hashEnum_cons]
  rfl

/-- Claim C2, counterexample: a store of 3001 identifiers whose insertion
order is `insOrder` (so `gid 0` is the oldest and should be the one evicted
under FIFO), together with a legitimate `list(seen)` enumeration of the same
set, `hashEnum`, under which the save keeps the oldest identifier `gid 0` and
evicts the newer `gid 1` instead: eviction follows the unspecified set
enumeration, not insertion order. -/
theorem save_seen_not_fifo_counterexample :
    hashEnum.Perm insOrder ∧
    gid 0 ∈ save_seen hashEnum ∧ gid 1 ∉ save_seen hashEnum := by
  refine ⟨List.perm_append_singleton _ _, ?_, ?_⟩
  · rw [save_seen_hashEnum]
    exact List.mem_append_right _ (List.mem_singleton_self _)
  · rw [save_seen_hashEnum]
    intro hmem
    rcases List.mem_append.mp hmem with h | h
    · rcases List.mem_map.mp h with ⟨n, _, heq⟩
      have := gid_inj heq
      omega
    · have := gid_inj (List.mem_singleton.mp h).symm
      omega

/-! ### Invariants of the per-run listing loop -/

theorem processItems_alerts_mono :
    ∀ (items : List Listing) (seen : List String) (alerts : List (Int × Listing))
      (a : Int × Listing), a ∈ alerts → a ∈ (processItems seen alerts items).2 := by
  intro items
  induction items with
  | nil => intro seen alerts a ha; simpa [processItems] using ha
  | cons it rest ih =>
    intro seen alerts a ha
    rw [processItems]
    by_cases h1 : it.id ∈ seen
    · rw [if_pos h1]
      exact ih _ _ _ ha
    · rw [if_neg h1]
      by_cases h2 : 3 ≤ score_listing it.title
      · rw [if_pos h2]
        exact ih _ _ _ (List.mem_append_left _ ha)
      · rw [if_neg h2]
        exact ih _ _ _ ha

theorem processItems_alert_inv :
    ∀ (items : List Listing) (seen : List String) (alerts : List (Int × Listing))
      (a : Int × Listing), a ∈ (processItems seen alerts items).2 →
      a ∈ alerts ∨ (a.2.id ∉ seen ∧ 3 ≤ a.1 ∧ a.1 = score_listing a.2.title) := by
  intro items
  induction items with
  | nil => intro seen alerts a ha; exact Or.inl (by simpa [processItems] using ha)
  | cons it rest ih =>
    intro seen alerts a ha
    rw [processItems] at ha
    by_cases h1 : it.id ∈ seen
    · rw [if_pos h1] at ha
      exact ih _ _ _ ha
    · rw [if_neg h1] at ha
      by_cases h2 : 3 ≤ score_listing it.title
      · rw [if_pos h2] at ha
        rcases ih _ _ _ ha with hold | hnew
        · rcases List.mem_append.mp hold with hl | hr
          · exact Or.inl hl
          · rcases List.mem_singleton.mp hr with rfl
            exact Or.inr ⟨h1, h2, rfl⟩
        · exact Or.inr ⟨fun hm => hnew.1 (List.mem_append_left _ hm), hnew.2⟩
      · rw [if_neg h2] at ha
        rcases ih _ _ _ ha with hold | hnew
        · exact Or.inl hold
        · exact Or.inr ⟨fun hm => hnew.1 (List.mem_append_left _ hm), hnew.2⟩

theorem processItems_seen_mono :
    ∀ (items : List Listing) (seen : List String) (alerts : List (Int × Listing))
      (i : String), i ∈ seen → i ∈ (processItems seen alerts items).1 := by
  intro items
  induction items with
  | nil => intro seen alerts i hi; simpa [processItems] using hi
  | cons it rest ih =>
    intro seen alerts i hi
    rw [processItems]
    by_cases h1 : it.id ∈ seen
    · rw [if_pos h1]
      exact ih _ _ _ hi
    · rw [if_neg h1]
      by_cases h2 : 3 ≤ score_listing it.title
      · rw [if_pos h2]
        exact ih _ _ _ (List.mem_append_left _ hi)
      · rw [if_neg h2]
        exact ih _ _ _ (List.mem_append_left _ hi)

theorem processItems_records :
    ∀ (items : List Listing) (seen : List String) (alerts : List (Int × Listing))
      (it : Listing), it ∈ items → it.id ∈ (processItems seen alerts items).1 := by
  intro items
  induction items with
  | nil => intro seen alerts it hit; simp at hit
  | cons hd rest ih =>
    intro seen alerts it hit
    rw [processItems]
    rcases List.mem_cons.mp hit with rfl | htl
    · by_cases h1 : it.id ∈ seen
      · rw [if_pos h1]
        exact processItems_seen_mono _ _ _ _ h1
      · rw [if_neg h1]
        have hmem : it.id ∈ seen ++ [it.id] :=
          List.mem_append_right _ (List.mem_singleton_self _)
        by_cases h2 : 3 ≤ score_listing it.title
        · rw [if_pos h2]
          exact processItems_seen_mono _ _ _ _ hmem
        · rw [if_neg h2]
          exact processItems_seen_mono _ _ _ _ hmem
    · by_cases h1 : hd.id ∈ seen
      · rw [if_pos h1]
        exact ih _ _ _ htl
      · rw [if_neg h1]
        by_cases h2 : 3 ≤ score_listing hd.title
        · rw [if_pos h2]
          exact ih _ _ _ htl
        · rw [if_neg h2]
          exact ih _ _ _ htl

theorem processItems_nodup :
    ∀ (items : List Listing) (seen : List String) (alerts : List (Int × Listing)),
      (∀ a ∈ alerts, a.2.id ∈ seen) →
      (alerts.map (fun a => a.2.id)).Nodup →
      ((processItems seen alerts items).2.map (fun a => a.2.id)).Nodup := by
  intro items
  induction items with
  | nil => intro seen alerts _ hnd; simpa [processItems] using hnd
  | cons it rest ih =>
    intro seen alerts hin hnd
    rw [processItems]
    by_cases h1 : it.id ∈ seen
    · rw [if_pos h1]
      exact ih _ _ hin hnd
    · rw [if_neg h1]
      by_cases h2 : 3 ≤ score_listing it.title
      · rw [if_pos h2]
        refine ih _ _ ?_ ?_
        · intro a ha
          rcases List.mem_append.mp ha with hl | hr
          · exact List.mem_append_left _ (hin a hl)
          · rcases List.mem_singleton.mp hr with rfl
            exact List.mem_append_right _ (List.mem_singleton_self _)
        · rw [List.map_append]
          rw [List.nodup_append]
          refine ⟨hnd, List.nodup_singleton _, ?_⟩
          intro x hx hx2
          rcases List.mem_map.mp hx with ⟨a, ha, rfl⟩
          have h : a.2.id = it.id := List.mem_singleton.mp hx2
          exact h1 (h ▸ hin a ha)
      · rw [if_neg h2]
        refine ih _ _ (fun a ha => List.mem_append_left _ (hin a ha)) hnd

theorem processItems_seen_eq :
    ∀ (items : List Listing) (seen : List String) (alerts : List (Int × Listing)),
      (∀ it ∈ items, it.id ∉ seen) → (items.map Listing.id).Nodup →
      (processItems seen alerts items).1 = seen ++ items.map Listing.id := by
  intro items
  induction items with
  | nil => intro seen alerts _ _; simp [processItems]
  | cons it rest ih =>
    intro seen alerts hdis hnd
    rw [processItems, if_neg (hdis it (List.mem_cons_self it rest))]
    rw [List.map_cons] at hnd ⊢
    have hnd2 := (List.nodup_cons.mp hnd).2
    have hid := (List.nodup_cons.mp hnd).1
    have hdis2 : ∀ it2 ∈ rest, it2.id ∉ seen ++ [it.id] := by
      intro it2 h2 hmem
      rcases List.mem_append.mp hmem with hl | hr
      · exact hdis it2 (List.mem_cons_of_mem it h2) hl
      · exact hid (List.mem_singleton.mp hr ▸ List.mem_map_of_mem Listing.id h2)
    by_cases h2 : 3 ≤ score_listing it.title
    · rw [if_pos h2, ih _ _ hdis2 hnd2, List.append_assoc]
      rfl
    · rw [if_neg h2, ih _ _ hdis2 hnd2, List.append_assoc]
      rfl

/-! ### The score is either the sentinel or non-negative -/

theorem qtyBonus_nonneg (q : Nat) : 0 ≤ qtyBonus q := by
  unfold qtyBonus
  split_ifs <;> norm_num

theorem foldl_ge_of_step (f : Int → String → Int) (hf : ∀ sc w, sc ≤ f sc w) :
    ∀ (l : List String) (sc : Int), sc ≤ l.foldl f sc := by
  intro l
  induction l with
  | nil => intro sc; simp
  | cons w l ih =>
    intro sc
    rw [List.foldl_cons]
    exact le_trans (hf sc w) (ih (f sc w))

theorem score_decomp_none (title : String) (hr : hard_reject (pyLower title) = false)
    (hq : extract_qty title = none) : score_listing title = scoreSansQty title := by
  simp only [score_listing, scoreSansQty, hr, Bool.false_eq_true, if_false, hq]

theorem score_decomp_some (title : String) (q : Nat)
    (hr : hard_reject (pyLower title) = false) (hq : extract_qty title = some q) :
    score_listing title = scoreSansQty title + qtyBonus q := by
  simp only [score_listing, scoreSansQty, qtyBonus, hr, Bool.false_eq_true, if_false, hq]
  split_ifs <;> omega

theorem scoreSansQty_nonneg (title : String)
    (hr : hard_reject (pyLower title) = false) : 0 ≤ scoreSansQty title := by
  simp only [scoreSansQty, hr, Bool.false_eq_true, if_false]
  have hf : ∀ (sc : Int) (w : String),
      sc ≤ if isSubL w.data (pyLower title).data = true then sc + 1 else sc := by
    intro sc w
    split <;> omega
  have hg : ∀ (sc : Int) (w : String),
      sc ≤ if isSubL w.data (pyLower title).data = true then sc + 2 else sc := by
    intro sc w
    split <;> omega
  have h1 := foldl_ge_of_step _ hf UK_HINTS
      ((if scanAlts typeAlts none (pyLower title).data = true then (2 : Int) else 0) +
        (if (BRANDS.any fun b => isSubL b.data (pyLower title).data) = true then (2 : Int) else 0))
  have h2 := foldl_ge_of_step _ hg BIG_LOT_HINTS
      (UK_HINTS.foldl
        (fun sc w => if isSubL w.data (pyLower title).data = true then sc + 1 else sc)
        ((if scanAlts typeAlts none (pyLower title).data = true then (2 : Int) else 0) +
          (if (BRANDS.any fun b => isSubL b.data (pyLower title).data) = true then (2 : Int) else 0)))
  split_ifs at h1 h2 ⊢ <;> omega

theorem score_listing_nonneg (title : String)
    (hr : hard_reject (pyLower title) = false) : 0 ≤ score_listing title := by
  have h1 := scoreSansQty_nonneg title hr
  cases hq : extract_qty title with
  | none => rw [score_decomp_none title hr hq]; exact h1
  | some q =>
    rw [score_decomp_some title q hr hq]
    have h2 := qtyBonus_nonneg q
    omega

/-- Claim C10 (confirmed): `score_listing` returns either exactly the
sentinel `-999` or a non-negative value — nothing strictly between — and
alerts only ever contain scores at least 3 of non-rejected titles, so a
hard-rejected listing can never enter the alert batch. -/
theorem score_gap_no_rejected_alert (title : String) (seen : List String)
    (items : List Listing) :
    (score_listing title = -999 ∨ 0 ≤ score_listing title) ∧
    (∀ sc it, (sc, it) ∈ (processItems seen [] items).2 →
      3 ≤ sc ∧ hard_reject (pyLower it.title) = false) := by
  constructor
  · cases hb : hard_reject (pyLower title) with
    | false => exact Or.inr (score_listing_nonneg title hb)
    | true => exact Or.inl (by simp [score_listing, hb])
  · intro sc it hmem
    rcases processItems_alert_inv items seen [] (sc, it) hmem with h | h
    · simp at h
    · obtain ⟨_, h3, hs⟩ := h
      refine ⟨h3, ?_⟩
      cases hb : hard_reject (pyLower it.title) with
      | false => rfl
      | true =>
        exfalso
        have hneg : score_listing it.title = -999 := by simp [score_listing, hb]
        rw [show sc = score_listing it.title from hs, hneg] at h3
        omega

/-! ### At-most-once alerting -/

/-- Claim C1 (amended): within any single run, the alert batch never holds
two alerts for the same identifier; an identifier present in the store loaded
at the start of the run never produces an alert; and every processed listing
is recorded as seen, whatever it scores.  Applied to a later run whose loaded
store still contains an identifier, this says the identifier never re-alerts
while it remains stored; the 3000-entry cap can however evict it, after which
it may alert again (`evicted_id_realerts_counterexample`). -/
theorem at_most_once_while_stored (seen : List String) (items : List Listing) :
    ((processItems seen [] items).2.map (fun a => a.2.id)).Nodup ∧
    (∀ a ∈ (processItems seen [] items).2, a.2.id ∉ seen) ∧
    (∀ it ∈ items, it.id ∈ (processItems seen [] items).1) := by
  refine ⟨processItems_nodup items seen [] (by simp) (by simp), ?_, ?_⟩
  · intro a ha
    rcases processItems_alert_inv items seen [] a ha with h | h
    · simp at h
    · exact h.1
  · intro it hit
    exact processItems_records items seen [] it hit

/-! ### A previously-alerted identifier can alert again after cap eviction -/

theorem fillerId_ne_x (n : Nat) : fillerId n ≠ "x" := by
  intro h
  have hd : List.replicate (n + 1) 'f' = ['x'] := congrArg String.data h
  have hl := congrArg List.length hd
  simp only [List.length_replicate, List.length_cons, List.length_nil] at hl
  have hn : n = 0 := by omega
  subst hn
  exact absurd hd (by decide)

theorem fillerId_inj {a b : Nat} (h : fillerId a = fillerId b) : a = b := by
  have hd : List.replicate (a + 1) 'f' = List.replicate (b + 1) 'f' :=
    congrArg String.data h
  have hl := congrArg List.length hd
  simp only [List.length_replicate] at hl
  omega

theorem lot_score : score_listing lotListing.title = 14 := by decide

theorem filler_ids_eq :
    ((List.range 3000).map fillerListing).map Listing.id = (List.range 3000).map fillerId := by
  rw [List.map_map]
  rfl

theorem filler_ids_nodup :
    (((List.range 3000).map fillerListing).map Listing.id).Nodup := by
  rw [filler_ids_eq]
  exact (List.nodup_range 3000).map (fun a b hab => fillerId_inj hab)

theorem run1_step :
    processItems [] [] run1Items =
      processItems ["x"] [(14, lotListing)] ((List.range 3000).map fillerListing) := by
  rw [run1Items, processItems]
  rw [if_neg (by simp : ¬ lotListing.id ∈ ([] : List String))]
  rw [lot_score, if_pos (by norm_num : (3 : Int) ≤ 14)]
  rfl

theorem run1_seen :
    (processItems ["x"] [(14, lotListing)] ((List.range 3000).map fillerListing)).1 =
      ["x"] ++ (List.range 3000).map fillerId := by
  have hdisj : ∀ it ∈ (List.range 3000).map fillerListing,
      it.id ∉ (["x"] : List String) := by
    intro it hit hmem
    rcases List.mem_map.mp hit with ⟨n, _, rfl⟩
    have heq : fillerId n = "x" := List.mem_singleton.mp hmem
    exact fillerId_ne_x n heq
  rw [processItems_seen_eq _ _ _ hdisj filler_ids_nodup, filler_ids_eq]

theorem run1_save :
    save_seen (["x"] ++ (List.range 3000).map fillerId) = (List.range 3000).map fillerId := by
  rw [save_seen]
  have hlen : ((["x"] : List String) ++ (List.range 3000).map fillerId).length = 3001 := by
    simp
  rw [hlen]
  rfl

/-- Claim C1, counterexample to "in any later run never produces another
alert": the listing with identifier "x" alerts in a first run that also
processes 3000 fresh identifiers; `save_seen` (here fed the store's own
insertion order, which is exactly the FIFO enumeration — any other
enumeration could only do worse) then evicts "x" under the 3000-entry cap,
and the identical listing alerts a second time in the next run. -/
theorem evicted_id_realerts_counterexample :
    (14, lotListing) ∈ (processItems [] [] run1Items).2 ∧
    (14, lotListing) ∈
      (processItems (save_seen (processItems [] [] run1Items).1) [] [lotListing]).2 := by
  constructor
  · rw [run1_step]
    exact processItems_alerts_mono _ _ _ _ (List.mem_singleton_self _)
  · rw [run1_step, run1_seen, run1_save]
    have hx : lotListing.id ∉ (List.range 3000).map fillerId := by
      intro hmem
      rcases List.mem_map.mp hmem with ⟨n, _, heq⟩
      exact fillerId_ne_x n heq
    rw [processItems, if_neg hx]
    rw [lot_score, if_pos (by norm_num : (3 : Int) ≤ 14)]
    rw [processItems]
    simp

/-! ### Ranking: sorted, capped, stable -/

theorem mem_insertDesc (x b : Int × Listing) :
    ∀ l, b ∈ insertDesc x l ↔ b = x ∨ b ∈ l := by
  intro l
  induction l with
  | nil => simp [insertDesc]
  | cons y ys ih =>
    rw [insertDesc]
    by_cases h : y.1 ≤ x.1
    · rw [if_pos h]
      simp [List.mem_cons]
    · rw [if_neg h]
      simp [List.mem_cons, ih]
      tauto

theorem sorted_insertDesc (x : Int × Listing) :
    ∀ l, List.Sorted (fun a b => b.1 ≤ a.1) l →
      List.Sorted (fun a b => b.1 ≤ a.1) (insertDesc x l) := by
  intro l
  induction l with
  | nil => intro _; simp [insertDesc]
  | cons y ys ih =>
    intro hl
    rcases List.sorted_cons.mp hl with ⟨hy, hys⟩
    rw [insertDesc]
    by_cases h : y.1 ≤ x.1
    · rw [if_pos h]
      refine List.sorted_cons.mpr ⟨?_, hl⟩
      intro b hb
      rcases List.mem_cons.mp hb with rfl | hmem
      · exact h
      · exact le_trans (hy b hmem) h
    · rw [if_neg h]
      refine List.sorted_cons.mpr ⟨?_, ih hys⟩
      intro b hb
      rcases (mem_insertDesc x b ys).mp hb with rfl | hmem
      · omega
      · exact hy b hmem

theorem sorted_sortDesc : ∀ l, List.Sorted (fun a b : Int × Listing => b.1 ≤ a.1) (sortDesc l) := by
  intro l
  induction l with
  | nil => simp [sortDesc]
  | cons x xs ih => exact sorted_insertDesc x _ ih

theorem filter_insertDesc (k : Int) (x : Int × Listing) :
    ∀ l, List.Sorted (fun a b : Int × Listing => b.1 ≤ a.1) l →
      (insertDesc x l).filter (fun a => a.1 == k) =
        if x.1 == k then x :: l.filter (fun a => a.1 == k)
        else l.filter (fun a => a.1 == k) := by
  intro l
  induction l with
  | nil =>
    intro _
    cases hx : (x.1 == k) <;> simp [insertDesc, List.filter_cons, hx]
  | cons y ys ih =>
    intro hl
    rcases List.sorted_cons.mp hl with ⟨hy, hys⟩
    rw [insertDesc]
    by_cases h : y.1 ≤ x.1
    · rw [if_pos h]
      cases hx : (x.1 == k) <;> simp [List.filter_cons, hx]
    · rw [if_neg h]
      rw [List.filter_cons, List.filter_cons, ih hys]
      cases hx : (x.1 == k) with
      | true =>
        have hxk : x.1 = k := eq_of_beq hx
        have hyk : (y.1 == k) = false := by
          refine beq_eq_false_iff_ne.mpr ?_
          omega
        simp [hyk, List.filter_cons]
      | false =>
        simp

theorem filter_sortDesc (k : Int) :
    ∀ l, (sortDesc l).filter (fun a => a.1 == k) = l.filter (fun a => a.1 == k) := by
  intro l
  induction l with
  | nil => rfl
  | cons x xs ih =>
    rw [sortDesc, filter_insertDesc k x _ (sorted_sortDesc xs), List.filter_cons]
    cases hx : (x.1 == k) <;> simp [hx, ih]

theorem filter_take_sub (p : Int × Listing → Bool) :
    ∀ (l : List (Int × Listing)) (m : Nat),
      ∃ n, (l.take m).filter p = (l.filter p).take n := by
  intro l
  induction l with
  | nil => intro m; exact ⟨0, by simp⟩
  | cons x xs ih =>
    intro m
    cases m with
    | zero => exact ⟨0, by simp⟩
    | succ m =>
      rcases ih m with ⟨n, hn⟩
      cases hx : p x with
      | true =>
        refine ⟨n + 1, ?_⟩
        rw [List.take_succ_cons, List.filter_cons, List.filter_cons, hx]
        simp [hn]
      | false =>
        refine ⟨n, ?_⟩
        rw [List.take_succ_cons, List.filter_cons, List.filter_cons, hx]
        simp [hn]

/-- Claim C8 (confirmed): the final alert batch holds at most 7 alerts,
sorted by score descending, and for every score value the alerts carrying it
appear as an initial segment of the equally-scored alerts in encounter order:
sorting is stable and truncation keeps that order, so equal scores tie-break
by original encounter order. -/
theorem alerts_ranked_capped_stable (l : List (Int × Listing)) (k : Int) :
    (rankAlerts l).length ≤ 7 ∧
    List.Sorted (fun a b => b.1 ≤ a.1) (rankAlerts l) ∧
    ∃ n, (rankAlerts l).filter (fun a => a.1 == k) =
      (l.filter (fun a => a.1 == k)).take n := by
  refine ⟨?_, ?_, ?_⟩
  · rw [rankAlerts, List.length_take]
    exact min_le_left _ _
  · rw [rankAlerts]
    exact List.Pairwise.sublist (List.take_sublist _ _) (sorted_sortDesc l)
  · rw [rankAlerts]
    rcases filter_take_sub (fun a => a.1 == k) (sortDesc l) 7 with ⟨n, hn⟩
    exact ⟨n, by rw [hn, filter_sortDesc]⟩

/-! ### Fail-open loading of the persisted store -/

theorem pyDedup_sub : ∀ (l : List PyVal) (x : PyVal), x ∈ pyDedup l → x ∈ l := by
  intro l
  induction l with
  | nil => intro x hx; simp [pyDedup] at hx
  | cons y ys ih =>
    intro x hx
    rw [pyDedup] at hx
    by_cases h : pyElem y ys = true
    · rw [if_pos h] at hx
      exact List.mem_cons_of_mem y (ih x hx)
    · rw [if_neg h] at hx
      rcases List.mem_cons.mp hx with rfl | h2
      · exact List.mem_cons_self _ _
      · exact List.mem_cons_of_mem y (ih x h2)

theorem mem_pyDedup_pstr (s : String) :
    ∀ ids : List String, PyVal.pstr s ∈ pyDedup (ids.map PyVal.pstr) ↔ s ∈ ids := by
  intro ids
  constructor
  · intro h
    rcases List.mem_map.mp (pyDedup_sub _ _ h) with ⟨u, hu, heq⟩
    have : u = s := by injection heq
    exact this ▸ hu
  · induction ids with
    | nil => intro h; simp at h
    | cons t ts ih =>
      intro h
      rw [List.map_cons, pyDedup]
      by_cases he : pyElem (PyVal.pstr t) (ts.map PyVal.pstr) = true
      · rw [if_pos he]
        rcases List.mem_cons.mp h with rfl | h2
        · have hts : s ∈ ts := by
            rcases List.any_eq_true.mp he with ⟨v, hv, hvv⟩
            rcases List.mem_map.mp hv with ⟨u, hu, rfl⟩
            have : s = u := eq_of_beq hvv
            exact this ▸ hu
          exact ih hts
        · exact ih h2
      · rw [if_neg he]
        rcases List.mem_cons.mp h with rfl | h2
        · exact List.mem_cons_self _ _
        · exact List.mem_cons_of_mem _ (ih h2)

/-- Claim C9 (confirmed): loading never raises — every failure path returns
a value — and an absent file, an unparseable file, or a parsed object without
the `seen_ids` key all degrade to the empty store, while a well-formed state
(an object whose `seen_ids` is a list of strings) loads exactly the set of
identifiers in that list. -/
theorem load_seen_fail_open (kvs : List (String × PyVal)) (ids : List String) :
    load_seen .absent = [] ∧
    load_seen .unparseable = [] ∧
    (dictGet kvs "seen_ids" = none → load_seen (.parsed (.pdict kvs)) = []) ∧
    (dictGet kvs "seen_ids" = some (.plist (ids.map PyVal.pstr)) →
      ∀ s : String, PyVal.pstr s ∈ load_seen (.parsed (.pdict kvs)) ↔ s ∈ ids) := by
  refine ⟨rfl, rfl, ?_, ?_⟩
  · intro h
    simp [load_seen, h]
  · intro h s
    have hall : (ids.map PyVal.pstr).all hashable = true := by
      rw [List.all_eq_true]
      intro v hv
      rcases List.mem_map.mp hv with ⟨u, _, rfl⟩
      rfl
    simp only [load_seen, h, pySet, hall, if_true, Option.getD_some]
    exact mem_pyDedup_pstr s ids

end CameraMonitor
